import Mathlib

/-!
Verification of the emotion-classification core of the hamster-generator app.

The embedding follows the source file `src/unnamed/part_000`:
* `classifyEmotion` (blend-shape snapshot → emotion + confidence),
* the temporal smoother `updateEmotionSmoothed` over the module-level
  `emotionHistory` (capacity `HISTORY_SIZE = 8`),
* `clearEmotion` / `updateUI`, acting on the module state
  (`emotionHistory`, `currentEmotion`).

Blend-shape scores are modelled as exact rationals.  JavaScript object
iteration over string keys follows insertion order, which the embedding
reproduces explicitly (`emotionOrder` for the score table written in the
source's literal order, and `freqKeys` for the frequency map keyed by
first occurrence in the history scan).
-/

inductive Emotion where
  | happy
  | sad
  | surprised
  | angry
  | neutral
  | excited
deriving DecidableEq, Repr, Fintype

open Emotion

/-- One entry of the blend-shape array handed to `classifyEmotion`. -/
structure BlendShape where
  categoryName : String
  score : ℚ
deriving DecidableEq, Repr

structure EmotionResult where
  emotion : Emotion
  confidence : ℚ
deriving DecidableEq, Repr

/-- The lookup dictionary built by the loop `for (const b of blendShapes) s[b.categoryName] = b.score`:
later entries overwrite earlier ones with the same name. -/
def buildDict (blendShapes : List BlendShape) : String → ℚ :=
  blendShapes.foldl (fun s b => fun n => if n = b.categoryName then b.score else s n)
    (fun _ => 0)

/-- The helper `get = (name) => s[name] ?? 0`: missing channels read as 0. -/
def getScore (blendShapes : List BlendShape) (name : String) : ℚ :=
  buildDict blendShapes name

-- The fourteen feature aggregates computed by `classifyEmotion`.

def smile (bs : List BlendShape) : ℚ :=
  (getScore bs "mouthSmileLeft" + getScore bs "mouthSmileRight") / 2

def frown (bs : List BlendShape) : ℚ :=
  (getScore bs "mouthFrownLeft" + getScore bs "mouthFrownRight") / 2

def dimple (bs : List BlendShape) : ℚ :=
  (getScore bs "mouthDimpleLeft" + getScore bs "mouthDimpleRight") / 2

def pucker (bs : List BlendShape) : ℚ :=
  getScore bs "mouthPucker"

def jawOpen (bs : List BlendShape) : ℚ :=
  getScore bs "jawOpen"

def browUp (bs : List BlendShape) : ℚ :=
  (getScore bs "browOuterUpLeft" + getScore bs "browOuterUpRight") / 2

def browInner (bs : List BlendShape) : ℚ :=
  getScore bs "browInnerUp"

def browDown (bs : List BlendShape) : ℚ :=
  (getScore bs "browDownLeft" + getScore bs "browDownRight") / 2

def eyeWide (bs : List BlendShape) : ℚ :=
  (getScore bs "eyeWideLeft" + getScore bs "eyeWideRight") / 2

def cheekSquint (bs : List BlendShape) : ℚ :=
  (getScore bs "cheekSquintLeft" + getScore bs "cheekSquintRight") / 2

def sneer (bs : List BlendShape) : ℚ :=
  (getScore bs "noseSneerLeft" + getScore bs "noseSneerRight") / 2

def mouthShrug (bs : List BlendShape) : ℚ :=
  (getScore bs "mouthShrugUpper" + getScore bs "mouthShrugLower") / 2

def eyeSquint (bs : List BlendShape) : ℚ :=
  (getScore bs "eyeSquintLeft" + getScore bs "eyeSquintRight") / 2

def eyeLookDown (bs : List BlendShape) : ℚ :=
  (getScore bs "eyeLookDownLeft" + getScore bs "eyeLookDownRight") / 2

/-- The raw (pre-clamp) score table, one linear formula per emotion. -/
def score (bs : List BlendShape) : Emotion → ℚ
  | .happy => smile bs * 1.5 + cheekSquint bs * 0.5
  | .excited => smile bs * 1.0 + eyeWide bs * 0.8 + browUp bs * 0.6 + jawOpen bs * 0.4
  | .surprised => jawOpen bs * 1.4 + eyeWide bs * 1.0 + browUp bs * 0.6 + browInner bs * 0.4
  | .sad =>
      frown bs * 1.4 + browInner bs * 0.7 + (1.0 - dimple bs) * 0.2 +
        (1.0 - pucker bs) * 0.2
  | .angry =>
      eyeSquint bs * 1.2 + mouthShrug bs * 1.0 + eyeLookDown bs * 0.7 +
        browDown bs * 0.5 + sneer bs * 0.5 - smile bs * 0.5
  | .neutral =>
      1.1 -
        (smile bs + frown bs + jawOpen bs + browUp bs + browDown bs + eyeWide bs +
            eyeSquint bs + mouthShrug bs) / 4

/-- The score after the `if (scores[key] < 0) scores[key] = 0` clamp. -/
def clampedScore (bs : List BlendShape) (e : Emotion) : ℚ :=
  if score bs e < 0 then 0 else score bs e

/-- Insertion order of the `scores` object literal, which is the iteration
order of `Object.entries(scores)` in the winner loop. -/
def emotionOrder : List Emotion :=
  [.happy, .excited, .surprised, .sad, .angry, .neutral]

/-- Position of an emotion in `emotionOrder`. -/
def emotionIdx : Emotion → Nat
  | .happy => 0
  | .excited => 1
  | .surprised => 2
  | .sad => 3
  | .angry => 4
  | .neutral => 5

/-- One step of the `if (score > bestScore) { bestScore = score; best = emotion }` loop. -/
def bestStep {α β : Type} [LinearOrder β] (f : α → β) (acc : α × β) (x : α) : α × β :=
  if f x > acc.2 then (x, f x) else acc

/-- The winner loop of `classifyEmotion`, started at `best = "neutral"`, `bestScore = -1`. -/
def findBest (f : Emotion → ℚ) : Emotion × ℚ :=
  emotionOrder.foldl (bestStep f) (Emotion.neutral, -1)

/-- The classifier: dictionary, aggregates, score table, clamp, winner loop,
confidence normalisation `min(bestScore / 1.5, 1)`. -/
def classifyEmotion (bs : List BlendShape) : EmotionResult :=
  ⟨(findBest (clampedScore bs)).1, min ((findBest (clampedScore bs)).2 / 1.5) 1⟩

-- ─── Smoother ───

def HISTORY_SIZE : Nat := 8

/-- The history update of `updateEmotionSmoothed`: `push` then `shift` when
the length exceeds `HISTORY_SIZE` (most recent element last). -/
def pushHistory (e : Emotion) (h : List Emotion) : List Emotion :=
  if (h ++ [e]).length > HISTORY_SIZE then (h ++ [e]).tail else h ++ [e]

/-- Insertion order of the keys of the `freq` object: the scan
`for (const e of emotionHistory) freq[e] = (freq[e] ?? 0) + 1` inserts each
emotion at its first occurrence, so `Object.entries(freq)` iterates
emotions in order of first occurrence in the history. -/
def freqKeys (h : List Emotion) : List Emotion :=
  h.foldl (fun acc e => if e ∈ acc then acc else acc ++ [e]) []

/-- The `dominant` computation of `updateEmotionSmoothed`: start at the
currently observed emotion with `max = 0` and take any strictly larger
count while iterating the frequency entries. -/
def dominantOf (fallback : Emotion) (h : List Emotion) : Emotion :=
  ((freqKeys h).foldl (bestStep (fun e => h.count e)) (fallback, 0)).1

/-- `updateEmotionSmoothed(emotion, confidence)`: push into the history,
compute the dominant emotion, and forward `(dominant, confidence)` to
`updateUI`.  Returns (new history, dominant label, forwarded confidence). -/
def updateEmotionSmoothed (emotion : Emotion) (confidence : ℚ) (h : List Emotion) :
    List Emotion × Emotion × ℚ :=
  (pushHistory emotion h, dominantOf emotion (pushHistory emotion h), confidence)

/-- The module-level mutable state relevant to the smoother: the history
and the currently displayed emotion (`null` at start / after clear). -/
structure AppState where
  emotionHistory : List Emotion
  currentEmotion : Option Emotion
deriving DecidableEq, Repr

/-- `clearEmotion()` as written in the source: it resets `currentEmotion`
(and the DOM widgets) but does not touch `emotionHistory`. -/
def clearEmotion (st : AppState) : AppState :=
  { st with currentEmotion := none }

/-- The change-suppression part of `updateUI`: skip when the label is
unchanged, otherwise record it as the displayed emotion. -/
def updateUI (emotion : Emotion) (st : AppState) : AppState :=
  if st.currentEmotion = some emotion then st
  else { st with currentEmotion := some emotion }

/-- Histories reachable by the app: the initial empty history and anything
obtained from a reachable history by one observation.  (`clearEmotion`
leaves the history unchanged, so it adds no transitions here.) -/
inductive ReachableHistory : List Emotion → Prop where
  | init : ReachableHistory []
  | observe (e : Emotion) {h : List Emotion} :
      ReachableHistory h → ReachableHistory (pushHistory e h)

-- ─── Concrete snapshots used by the claims ───

/-- The scenario snapshot of §8: jawOpen=0.8, eyeWideLeft=eyeWideRight=0.7,
browOuterUpLeft=browOuterUpRight=0.5, browInnerUp=0.3, all else absent. -/
def snapshotC9 : List BlendShape :=
  [⟨"jawOpen", 0.8⟩, ⟨"eyeWideLeft", 0.7⟩, ⟨"eyeWideRight", 0.7⟩,
   ⟨"browOuterUpLeft", 0.5⟩, ⟨"browOuterUpRight", 0.5⟩, ⟨"browInnerUp", 0.3⟩]

-- ─── Claims ───

/-- C1 (counterexample): `clearEmotion` does not clear the history.  From the
prior history [sad, sad], after `clearEmotion` the history still has length 2,
and a single `observe(happy)` yields dominant = sad, not happy. -/
theorem claim1_counterexample :
    (clearEmotion ⟨[.sad, .sad], some .sad⟩).emotionHistory.length ≠ 0 ∧
    dominantOf .happy
        (pushHistory .happy (clearEmotion ⟨[.sad, .sad], some .sad⟩).emotionHistory) ≠
      .happy := by
  decide

/-- C1 (amended): `clearEmotion` resets `DisplayState` to none but leaves
`EmotionHistory` untouched; a single subsequent `observe(e)` makes the
dominant label e only when the retained history is empty (e.g. from the
initial state). -/
theorem claim1_amended :
    ∀ (st : AppState) (e : Emotion),
      (clearEmotion st).currentEmotion = none ∧
      (clearEmotion st).emotionHistory = st.emotionHistory ∧
      dominantOf e (pushHistory e (clearEmotion ⟨[], none⟩).emotionHistory) = e := by
  intro st e
  refine ⟨rfl, rfl, ?_⟩
  cases e <;> decide

/-- C2 (counterexample): on the empty snapshot the post-clamp `sad` score is
2/5, which is positive — not every non-neutral score is 0. -/
theorem claim2_counterexample :
    clampedScore [] Emotion.sad = 2/5 ∧ 0 < clampedScore [] Emotion.sad := by
  constructor <;>
    norm_num [clampedScore, score, frown, browInner, dimple, pucker, getScore,
      buildDict, List.foldl_nil]

/-- C2 (amended): for the empty snapshot every aggregate is 0; the post-clamp
scores are 0 for happy, excited, surprised and angry, 2/5 for sad (its two
constant terms 0.2·(1−dimple) + 0.2·(1−pucker)), and 11/10 for neutral; the
neutral score is the strict maximum. -/
theorem claim2_amended :
    (smile [] = 0 ∧ frown [] = 0 ∧ dimple [] = 0 ∧ pucker [] = 0 ∧ jawOpen [] = 0 ∧
      browUp [] = 0 ∧ browInner [] = 0 ∧ browDown [] = 0 ∧ eyeWide [] = 0 ∧
      cheekSquint [] = 0 ∧ sneer [] = 0 ∧ mouthShrug [] = 0 ∧ eyeSquint [] = 0 ∧
      eyeLookDown [] = 0) ∧
    (clampedScore [] Emotion.happy = 0 ∧ clampedScore [] Emotion.excited = 0 ∧
      clampedScore [] Emotion.surprised = 0 ∧ clampedScore [] Emotion.angry = 0 ∧
      clampedScore [] Emotion.sad = 2/5 ∧ clampedScore [] Emotion.neutral = 11/10) ∧
    (∀ e : Emotion, e ≠ Emotion.neutral →
      clampedScore [] e < clampedScore [] Emotion.neutral) := by
  refine ⟨?_, ?_, ?_⟩
  · refine ⟨?_, ?_, ?_, ?_, ?_, ?_, ?_, ?_, ?_, ?_, ?_, ?_, ?_, ?_⟩ <;>
      norm_num [smile, frown, dimple, pucker, jawOpen, browUp, browInner, browDown,
        eyeWide, cheekSquint, sneer, mouthShrug, eyeSquint, eyeLookDown, getScore,
        buildDict, List.foldl_nil]
  · refine ⟨?_, ?_, ?_, ?_, ?_, ?_⟩ <;>
      norm_num [clampedScore, score, smile, frown, dimple, pucker, jawOpen, browUp,
        browInner, browDown, eyeWide, cheekSquint, sneer, mouthShrug, eyeSquint,
        eyeLookDown, getScore, buildDict, List.foldl_nil]
  · intro e he
    cases e <;> simp only [ne_eq, not_true_eq_false] at he <;>
      norm_num [clampedScore, score, smile, frown, dimple, pucker, jawOpen, browUp,
        browInner, browDown, eyeWide, cheekSquint, sneer, mouthShrug, eyeSquint,
        eyeLookDown, getScore, buildDict, List.foldl_nil]

/-- C3 (counterexample): the classifier does not sanitise out-of-range scores.
With mouthSmileLeft = 2 (outside [0,1]) the result differs from the result on
the snapshot with that channel removed (the empty snapshot). -/
theorem claim3_counterexample :
    ¬ (2:ℚ) ≤ 1 ∧ classifyEmotion [⟨"mouthSmileLeft", 2⟩] ≠ classifyEmotion [] := by
  have h1 : classifyEmotion [⟨"mouthSmileLeft", 2⟩] = ⟨Emotion.happy, 1⟩ := by
    simp [classifyEmotion, findBest, emotionOrder, bestStep, clampedScore, score,
      smile, frown, dimple, pucker, jawOpen, browUp, browInner, browDown, eyeWide,
      cheekSquint, sneer, mouthShrug, eyeSquint, eyeLookDown, getScore, buildDict,
      List.foldl_nil, List.foldl_cons]
    norm_num
  have h2 : classifyEmotion [] = ⟨Emotion.neutral, 11/15⟩ := by
    norm_num [classifyEmotion, findBest, emotionOrder, bestStep, clampedScore, score,
      smile, frown, dimple, pucker, jawOpen, browUp, browInner, browDown, eyeWide,
      cheekSquint, sneer, mouthShrug, eyeSquint, eyeLookDown, getScore, buildDict,
      List.foldl_nil, List.foldl_cons]
  refine ⟨by norm_num, ?_⟩
  rw [h1, h2]
  simp

/-- C3 (amended): `classifyEmotion` is a total function that treats missing
channels as 0, but a present channel's stored score (the last write for that
name) is used unchanged, even when it lies outside [0,1]. -/
theorem claim3_amended :
    (∀ n : String, getScore [] n = 0) ∧
    (∀ (bs : List BlendShape) (b : BlendShape),
      getScore (bs ++ [b]) b.categoryName = b.score) := by
  constructor
  · intro n; rfl
  · intro bs b
    simp [getScore, buildDict, List.foldl_append]

/-- C4: on the empty snapshot the classifier returns neutral with confidence
exactly min(1.1/1.5, 1) = 11/15. -/
theorem claim4_theorem :
    classifyEmotion [] = ⟨Emotion.neutral, 11/15⟩ ∧ (11:ℚ)/15 = min (1.1/1.5) 1 := by
  constructor
  · norm_num [classifyEmotion, findBest, emotionOrder, bestStep, clampedScore, score,
      smile, frown, dimple, pucker, jawOpen, browUp, browInner, browDown, eyeWide,
      cheekSquint, sneer, mouthShrug, eyeSquint, eyeLookDown, getScore, buildDict,
      List.foldl_nil, List.foldl_cons]
  · norm_num

/-- C9: on `snapshotC9` the classifier returns surprised with confidence
min(2.24/1.5, 1) = 1; the surprised score is 56/25 = 2.24 and strictly
exceeds every other emotion's post-clamp score. -/
theorem claim9_theorem :
    classifyEmotion snapshotC9 = ⟨Emotion.surprised, 1⟩ ∧
    clampedScore snapshotC9 Emotion.surprised = 56/25 ∧
    (∀ e : Emotion, e ≠ Emotion.surprised →
      clampedScore snapshotC9 e < clampedScore snapshotC9 Emotion.surprised) := by
  refine ⟨?_, ?_, ?_⟩
  · simp [classifyEmotion, findBest, emotionOrder, bestStep, clampedScore, score,
      smile, frown, dimple, pucker, jawOpen, browUp, browInner, browDown, eyeWide,
      cheekSquint, sneer, mouthShrug, eyeSquint, eyeLookDown, getScore, buildDict,
      snapshotC9, List.foldl_nil, List.foldl_cons]
    norm_num
  · simp [clampedScore, score, jawOpen, eyeWide, browUp, browInner, getScore,
      buildDict, snapshotC9, List.foldl_nil, List.foldl_cons]
    norm_num
  · intro e he
    cases e <;> simp only [ne_eq, not_true_eq_false] at he <;>
      (simp [clampedScore, score, smile, frown, dimple, pucker, jawOpen, browUp,
        browInner, browDown, eyeWide, cheekSquint, sneer, mouthShrug, eyeSquint,
        eyeLookDown, getScore, buildDict, snapshotC9, List.foldl_nil,
        List.foldl_cons]; norm_num)

/-- C10: the confidence forwarded to the UI by `updateEmotionSmoothed` is
always the current frame's raw confidence, unchanged, even when the smoothed
label differs from the raw label (as with raw = happy over history
[sad, sad], where the forwarded label is sad). -/
theorem claim10_theorem :
    ∀ (e : Emotion) (c : ℚ) (h : List Emotion),
      (updateEmotionSmoothed e c h).2.2 = c ∧
      (updateEmotionSmoothed .happy c [.sad, .sad]).2.1 = .sad ∧
      Emotion.sad ≠ Emotion.happy := by
  intro e c h
  refine ⟨rfl, ?_, by decide⟩
  show dominantOf .happy (pushHistory .happy [.sad, .sad]) = .sad
  decide

-- ─── Generic behaviour of the strict-improvement argmax loop ───

/-- Running the `if (v > best) take v` loop from `(b, m)`: the final max
dominates the initial value and every scanned value, and when it improved on
the initial value the final champion occurs in the list with every entry
strictly before it scoring strictly below the final max. -/
lemma foldl_bestStep_spec {α β : Type} [LinearOrder β] (f : α → β) (xs : List α) :
    ∀ (b : α) (m : β) (c : α) (M : β),
      xs.foldl (bestStep f) (b, m) = (c, M) →
      m ≤ M ∧ (∀ x ∈ xs, f x ≤ M) ∧
        ((c = b ∧ M = m) ∨
          (m < M ∧ f c = M ∧
            ∃ pre post, xs = pre ++ c :: post ∧ ∀ y ∈ pre, f y < M)) := by
  induction xs with
  | nil =>
      intro b m c M hres
      simp only [List.foldl_nil, Prod.mk.injEq] at hres
      obtain ⟨rfl, rfl⟩ := hres
      exact ⟨le_refl _, by simp, Or.inl ⟨rfl, rfl⟩⟩
  | cons x t ih =>
      intro b m c M hres
      rw [List.foldl_cons] at hres
      by_cases hx : f x > m
      · have hstep : bestStep f (b, m) x = (x, f x) := if_pos hx
        rw [hstep] at hres
        obtain ⟨h1, h2, h3⟩ := ih x (f x) c M hres
        refine ⟨le_trans (le_of_lt hx) h1, ?_, ?_⟩
        · intro y hy
          rcases List.mem_cons.mp hy with rfl | hyt
          · exact h1
          · exact h2 y hyt
        · rcases h3 with ⟨rfl, rfl⟩ | ⟨hmM, hfc, pre, post, hxs, hpre⟩
          · exact Or.inr ⟨hx, rfl, [], t, rfl, by simp⟩
          · refine Or.inr ⟨lt_trans hx hmM, hfc, x :: pre, post, by rw [hxs, List.cons_append], ?_⟩
            intro y hy
            rcases List.mem_cons.mp hy with rfl | hyp
            · exact hmM
            · exact hpre y hyp
      · have hstep : bestStep f (b, m) x = (b, m) := if_neg hx
        rw [hstep] at hres
        obtain ⟨h1, h2, h3⟩ := ih b m c M hres
        refine ⟨h1, ?_, ?_⟩
        · intro y hy
          rcases List.mem_cons.mp hy with rfl | hyt
          · exact le_trans (not_lt.mp hx) h1
          · exact h2 y hyt
        · rcases h3 with hl | ⟨hmM, hfc, pre, post, hxs, hpre⟩
          · exact Or.inl hl
          · refine Or.inr ⟨hmM, hfc, x :: pre, post, by rw [hxs, List.cons_append], ?_⟩
            intro y hy
            rcases List.mem_cons.mp hy with rfl | hyp
            · exact lt_of_le_of_lt (not_lt.mp hx) hmM
            · exact hpre y hyp

/-- Clamped scores are non-negative. -/
lemma clampedScore_nonneg (bs : List BlendShape) (e : Emotion) :
    0 ≤ clampedScore bs e := by
  simp only [clampedScore]
  split
  next h => exact le_refl 0
  next h => exact not_lt.mp h

/-- The winning score of the classifier is non-negative. -/
lemma findBest_snd_nonneg (bs : List BlendShape) :
    0 ≤ (findBest (clampedScore bs)).2 := by
  obtain ⟨hm, hall, hdisj⟩ :=
    foldl_bestStep_spec (clampedScore bs) emotionOrder Emotion.neutral (-1)
      (findBest (clampedScore bs)).1 (findBest (clampedScore bs)).2 rfl
  rcases hdisj with ⟨hc, hMm⟩ | ⟨hlt, hfc, _⟩
  · exfalso
    have hh : clampedScore bs Emotion.happy ≤ (findBest (clampedScore bs)).2 :=
      hall _ (by simp [emotionOrder])
    rw [hMm] at hh
    linarith [clampedScore_nonneg bs Emotion.happy]
  · rw [← hfc]
    exact clampedScore_nonneg bs _

/-- C5: for every snapshot, the returned confidence lies in [0, 1]: it is
`min(bestScore/1.5, 1)` for a non-negative post-clamp winning score. -/
theorem claim5_theorem (bs : List BlendShape) :
    0 ≤ (classifyEmotion bs).confidence ∧ (classifyEmotion bs).confidence ≤ 1 := by
  constructor
  · show 0 ≤ min ((findBest (clampedScore bs)).2 / 1.5) 1
    refine le_min (div_nonneg (findBest_snd_nonneg bs) (by norm_num)) (by norm_num)
  · show min ((findBest (clampedScore bs)).2 / 1.5) 1 ≤ 1
    exact min_le_right _ _

/-- Splitting `emotionOrder` as `pre ++ c :: post` places exactly the
emotions with smaller index in `pre`. -/
lemma emotionOrder_pre_mem (pre post : List Emotion) (c : Emotion)
    (hxs : emotionOrder = pre ++ c :: post) :
    ∀ e : Emotion, emotionIdx e < emotionIdx c → e ∈ pre := by
  have hlen : pre.length + (post.length + 1) = 6 := by
    have h6 := congrArg List.length hxs
    simp [emotionOrder] at h6
    omega
  have htake : pre = emotionOrder.take pre.length := by
    rw [hxs, List.take_left]
  have hdrop : c :: post = emotionOrder.drop pre.length := by
    rw [hxs, List.drop_left]
  have hcases : pre.length = 0 ∨ pre.length = 1 ∨ pre.length = 2 ∨ pre.length = 3 ∨
      pre.length = 4 ∨ pre.length = 5 := by omega
  rcases hcases with h | h | h | h | h | h <;>
    rw [h] at htake hdrop <;>
    simp [emotionOrder, List.take_succ_cons, List.take_zero, List.drop_succ_cons,
      List.drop_zero] at htake hdrop <;>
    obtain ⟨rfl, -⟩ := hdrop <;>
    subst htake <;>
    decide

/-- C7: `classifyEmotion` picks an emotion of maximal post-clamp score, and
among score ties the winner is the emotion that comes first in the
enumeration order happy, excited, surprised, sad, angry, neutral: every
emotion strictly earlier than the winner scores strictly below it. -/
theorem claim7_theorem (bs : List BlendShape) :
    (∀ e : Emotion,
      clampedScore bs e ≤ clampedScore bs (classifyEmotion bs).emotion) ∧
    (∀ e : Emotion, emotionIdx e < emotionIdx (classifyEmotion bs).emotion →
      clampedScore bs e < clampedScore bs (classifyEmotion bs).emotion) := by
  obtain ⟨hm, hall, hdisj⟩ :=
    foldl_bestStep_spec (clampedScore bs) emotionOrder Emotion.neutral (-1)
      (findBest (clampedScore bs)).1 (findBest (clampedScore bs)).2 rfl
  have hmem : ∀ e : Emotion, e ∈ emotionOrder := by
    intro e
    cases e <;> simp [emotionOrder]
  rcases hdisj with ⟨hc, hMm⟩ | ⟨hlt, hfc, pre, post, hxs, hpre⟩
  · exfalso
    have hh := hall Emotion.happy (hmem _)
    rw [hMm] at hh
    linarith [clampedScore_nonneg bs Emotion.happy]
  · have hwin : (classifyEmotion bs).emotion = (findBest (clampedScore bs)).1 := rfl
    constructor
    · intro e
      rw [hwin, hfc]
      exact hall e (hmem e)
    · intro e he
      rw [hwin] at he ⊢
      rw [hfc]
      exact hpre e (emotionOrder_pre_mem pre post _ hxs e he)

/-- C7 (witness): at the empty snapshot the two conjuncts of `claim7_theorem`
hold of the computed winner. -/
theorem claim7_witness :
    (∀ e : Emotion,
      clampedScore [] e ≤ clampedScore [] (classifyEmotion []).emotion) ∧
    (∀ e : Emotion, emotionIdx e < emotionIdx (classifyEmotion []).emotion →
      clampedScore [] e < clampedScore [] (classifyEmotion []).emotion) :=
  claim7_theorem []

-- ─── First-occurrence key order of the frequency map ───

/-- Recursive description of the first-occurrence key list: the head
followed by the later distinct emotions other than the head. -/
def firstKeys : List Emotion → List Emotion
  | [] => []
  | e :: t => e :: (firstKeys t).filter (fun x => decide (x ≠ e))

/-- The insert-if-new scan from any accumulator appends exactly the
first-occurrence keys not already present. -/
lemma foldl_ins_eq (l : List Emotion) :
    ∀ acc : List Emotion,
      l.foldl (fun a e => if e ∈ a then a else a ++ [e]) acc
        = acc ++ (firstKeys l).filter (fun x => decide (x ∉ acc)) := by
  induction l with
  | nil =>
      intro acc
      simp [firstKeys]
  | cons e t ih =>
      intro acc
      rw [List.foldl_cons]
      by_cases he : e ∈ acc
      · rw [if_pos he, ih acc, firstKeys, List.filter_cons]
        have hdec : (decide (e ∉ acc)) = false := by simp [he]
        rw [hdec]
        simp only [Bool.false_eq_true, if_false]
        congr 1
        rw [List.filter_filter]
        refine (List.filter_congr ?_).symm
        intro x hx
        by_cases hxa : x ∈ acc
        · simp [hxa]
        · have hxe : x ≠ e := by
            rintro rfl
            exact hxa he
          simp [hxa, hxe]
      · rw [if_neg he, ih (acc ++ [e]), firstKeys, List.filter_cons]
        have hdec : (decide (e ∉ acc)) = true := by simp [he]
        rw [hdec]
        simp only [if_true]
        rw [List.append_assoc, List.singleton_append]
        congr 2
        rw [List.filter_filter]
        refine List.filter_congr ?_
        intro x hx
        by_cases hxe : x = e
        · subst hxe
          simp
        · by_cases hxa : x ∈ acc <;> simp [hxa, hxe]

/-- The key list of the frequency object is the first-occurrence list. -/
lemma freqKeys_eq (l : List Emotion) : freqKeys l = firstKeys l := by
  rw [freqKeys, foldl_ins_eq l []]
  simp

/-- Membership in the first-occurrence key list is membership in the list. -/
lemma mem_firstKeys {x : Emotion} : ∀ {l : List Emotion}, x ∈ firstKeys l ↔ x ∈ l := by
  intro l
  induction l with
  | nil => simp [firstKeys]
  | cons e t ih =>
      rw [firstKeys]
      by_cases hxe : x = e
      · subst hxe
        simp
      · simp [hxe, List.mem_filter, ih]

/-- The first-occurrence key list is strictly sorted by index of first
occurrence in the original list. -/
lemma firstKeys_pairwise (l : List Emotion) :
    (firstKeys l).Pairwise (fun a b => l.indexOf a < l.indexOf b) := by
  induction l with
  | nil => simp [firstKeys]
  | cons e t ih =>
      rw [firstKeys]
      refine List.Pairwise.cons ?_ ?_
      · intro b hb
        have hbe : b ≠ e := by simpa using (List.mem_filter.mp hb).2
        rw [List.indexOf_cons_self, List.indexOf_cons_ne _ (Ne.symm hbe)]
        exact Nat.succ_pos _
      · refine List.Pairwise.imp_of_mem ?_ (List.Pairwise.filter _ ih)
        intro a b ha hb hab
        have hae : a ≠ e := by simpa using (List.mem_filter.mp ha).2
        have hbe : b ≠ e := by simpa using (List.mem_filter.mp hb).2
        rw [List.indexOf_cons_ne _ (Ne.symm hae), List.indexOf_cons_ne _ (Ne.symm hbe)]
        exact Nat.succ_lt_succ hab

/-- Pushing onto the history never empties it. -/
lemma pushHistory_ne_nil (e : Emotion) (h : List Emotion) : pushHistory e h ≠ [] := by
  rw [pushHistory]
  split
  next hlen =>
    intro hc
    have hlen2 := congrArg List.length hc
    rw [List.length_tail, List.length_append] at hlen2
    rw [List.length_append] at hlen
    simp only [List.length_singleton, List.length_nil, HISTORY_SIZE] at hlen2 hlen
    omega
  next hlen =>
    simp

/-- The dominant emotion of a non-empty history occurs in it, has maximal
count, and among count ties has the earliest first occurrence. -/
lemma dominantOf_spec (fb : Emotion) (l : List Emotion) (hl : l ≠ []) :
    dominantOf fb l ∈ l ∧
    (∀ x ∈ l, l.count x ≤ l.count (dominantOf fb l)) ∧
    (∀ x ∈ l, l.count x = l.count (dominantOf fb l) →
      l.indexOf (dominantOf fb l) ≤ l.indexOf x) := by
  obtain ⟨hm, hall, hdisj⟩ :=
    foldl_bestStep_spec (fun e => l.count e) (freqKeys l) fb 0
      (dominantOf fb l)
      ((freqKeys l).foldl (bestStep fun e => l.count e) (fb, 0)).2 rfl
  have hmemK : ∀ x : Emotion, x ∈ l → x ∈ freqKeys l := by
    intro x hx
    rw [freqKeys_eq]
    exact mem_firstKeys.mpr hx
  rcases hdisj with ⟨hc, hM0⟩ | ⟨hlt, hfc, pre, post, hK, hpre⟩
  · exfalso
    obtain ⟨a, ha⟩ := List.exists_mem_of_ne_nil l hl
    have h1 := hall a (hmemK a ha)
    rw [hM0] at h1
    have h2 : 0 < l.count a := List.count_pos_iff.mpr ha
    omega
  · have hdK : dominantOf fb l ∈ freqKeys l := by
      rw [hK]
      exact List.mem_append.mpr (Or.inr (List.mem_cons_self _ _))
    have hdl : dominantOf fb l ∈ l := by
      rw [freqKeys_eq] at hdK
      exact mem_firstKeys.mp hdK
    refine ⟨hdl, ?_, ?_⟩
    · intro x hx
      rw [hfc]
      exact hall x (hmemK x hx)
    · intro x hx hcx
      have hxK : x ∈ freqKeys l := hmemK x hx
      rw [hK] at hxK
      rcases List.mem_append.mp hxK with hxpre | hxrest
      · exfalso
        have := hpre x hxpre
        rw [hfc] at hcx
        omega
      · rcases List.mem_cons.mp hxrest with rfl | hxpost
        · exact le_refl _
        · have PW := firstKeys_pairwise l
          rw [← freqKeys_eq, hK] at PW
          have PW2 := PW.sublist (List.sublist_append_right pre _)
          exact le_of_lt (List.rel_of_pairwise_cons PW2 hxpost)

/-- C8: the smoothed label emitted by `updateEmotionSmoothed` occurs in the
(always non-empty) post-push history, has maximal frequency there, and among
frequency ties it is the emotion whose first occurrence comes earliest in
the history's chronological scan order. -/
theorem claim8_theorem (e : Emotion) (conf : ℚ) (h : List Emotion) :
    (updateEmotionSmoothed e conf h).2.1 ∈ (updateEmotionSmoothed e conf h).1 ∧
    (∀ x ∈ (updateEmotionSmoothed e conf h).1,
      (updateEmotionSmoothed e conf h).1.count x ≤
        (updateEmotionSmoothed e conf h).1.count (updateEmotionSmoothed e conf h).2.1) ∧
    (∀ x ∈ (updateEmotionSmoothed e conf h).1,
      (updateEmotionSmoothed e conf h).1.count x =
          (updateEmotionSmoothed e conf h).1.count (updateEmotionSmoothed e conf h).2.1 →
        (updateEmotionSmoothed e conf h).1.indexOf (updateEmotionSmoothed e conf h).2.1 ≤
          (updateEmotionSmoothed e conf h).1.indexOf x) :=
  dominantOf_spec e (pushHistory e h) (pushHistory_ne_nil e h)

-- ─── Iterated observation and the capacity invariant ───

/-- Observing the same emotion `n` times in a row. -/
def observeN (e : Emotion) : Nat → List Emotion → List Emotion
  | 0, h => h
  | n + 1, h => pushHistory e (observeN e n h)

/-- One observation preserves the capacity bound. -/
lemma length_pushHistory_le (e : Emotion) (h : List Emotion)
    (hh : h.length ≤ HISTORY_SIZE) : (pushHistory e h).length ≤ HISTORY_SIZE := by
  rw [pushHistory]
  split
  next hlen =>
    rw [List.length_tail, List.length_append]
    simp only [List.length_singleton]
    omega
  next hlen =>
    rw [List.length_append] at hlen
    simp only [List.length_singleton, gt_iff_lt, not_lt] at hlen
    rw [List.length_append]
    simpa using hlen

/-- Every reachable history respects the capacity bound. -/
lemma reachable_length_le {h : List Emotion} (hr : ReachableHistory h) :
    h.length ≤ HISTORY_SIZE := by
  induction hr with
  | init => simp
  | observe e hr ih => exact length_pushHistory_le _ _ ih

/-- Closed form of iterated observation: the history is the suffix of the
old history extended by the new observations that fits the capacity. -/
lemma observeN_eq_drop (e : Emotion) (h : List Emotion) (hh : h.length ≤ HISTORY_SIZE) :
    ∀ n : Nat,
      observeN e n h
        = (h ++ List.replicate n e).drop (h.length + n - HISTORY_SIZE) := by
  intro n
  induction n with
  | zero =>
      simp only [observeN, List.replicate_zero, List.append_nil, Nat.add_zero]
      rw [Nat.sub_eq_zero_of_le hh, List.drop_zero]
  | succ n ih =>
      have hrep : h ++ List.replicate (n + 1) e = (h ++ List.replicate n e) ++ [e] := by
        rw [List.replicate_succ', List.append_assoc]
      have hA : (h ++ List.replicate n e).length = h.length + n := by simp
      have hdle : h.length + n - HISTORY_SIZE ≤ (h ++ List.replicate n e).length := by
        rw [hA]
        omega
      simp only [observeN]
      rw [ih, pushHistory]
      split
      next hcond =>
        rw [List.length_append, List.length_drop, hA, List.length_singleton] at hcond
        rw [← List.drop_append_of_le_length hdle, List.tail_drop, ← hrep]
        congr 1
        omega
      next hcond =>
        rw [List.length_append, List.length_drop, hA, List.length_singleton] at hcond
        simp only [gt_iff_lt, not_lt] at hcond
        have hd : h.length + n - HISTORY_SIZE = 0 := by omega
        have hd2 : h.length + (n + 1) - HISTORY_SIZE = 0 := by omega
        rw [hd, hd2, List.drop_zero, List.drop_zero, hrep]
  
/-- After at least `HISTORY_SIZE` consecutive observations of `e` the
history is exactly `HISTORY_SIZE` copies of `e`. -/
lemma observeN_large (e : Emotion) (h : List Emotion) (hh : h.length ≤ HISTORY_SIZE)
    (k : Nat) :
    observeN e (HISTORY_SIZE + k) h = List.replicate HISTORY_SIZE e := by
  rw [observeN_eq_drop e h hh]
  have hd : h.length + (HISTORY_SIZE + k) - HISTORY_SIZE = h.length + k := by omega
  rw [hd, Nat.add_comm HISTORY_SIZE k, List.replicate_add, ← List.append_assoc]
  have hlen : (h ++ List.replicate k e).length = h.length + k := by simp
  rw [← hlen, List.drop_left]

/-- The first-occurrence key list of a constant history is a singleton. -/
lemma firstKeys_replicate (e : Emotion) :
    ∀ n : Nat, 0 < n → firstKeys (List.replicate n e) = [e] := by
  intro n
  induction n with
  | zero =>
      intro hn
      exact absurd hn (by omega)
  | succ n ih =>
      intro _
      rw [List.replicate_succ, firstKeys]
      by_cases hn : n = 0
      · subst hn
        simp [firstKeys]
      · rw [ih (Nat.pos_of_ne_zero hn)]
        simp

/-- The dominant emotion of a constant full history is that emotion. -/
lemma dominantOf_replicate (fb e : Emotion) :
    dominantOf fb (List.replicate HISTORY_SIZE e) = e := by
  rw [dominantOf, freqKeys_eq, firstKeys_replicate e HISTORY_SIZE (by simp [HISTORY_SIZE])]
  rw [List.foldl_cons, List.foldl_nil]
  have hc : (List.replicate HISTORY_SIZE e).count e = HISTORY_SIZE :=
    List.count_replicate_self e HISTORY_SIZE
  have hpos : (List.replicate HISTORY_SIZE e).count e > 0 := by
    rw [hc]
    simp [HISTORY_SIZE]
  have hstep :
      bestStep (fun x => (List.replicate HISTORY_SIZE e).count x) (fb, 0) e
        = (e, (List.replicate HISTORY_SIZE e).count e) := if_pos hpos
  rw [hstep]

/-- C6: from every reachable state the history length stays at most
`HISTORY_SIZE` after an observation, and observing the same emotion `e`
`HISTORY_SIZE + k` times (k > 0) leaves the history at exactly
`HISTORY_SIZE` entries with dominant label `e`. -/
theorem claim6_theorem (h : List Emotion) (e : Emotion) (k : Nat)
    (hr : ReachableHistory h) (hk : 0 < k) :
    (pushHistory e h).length ≤ HISTORY_SIZE ∧
    (observeN e (HISTORY_SIZE + k) h).length = HISTORY_SIZE ∧
    dominantOf e (observeN e (HISTORY_SIZE + k) h) = e := by
  have hh := reachable_length_le hr
  refine ⟨length_pushHistory_le e h hh, ?_, ?_⟩
  · rw [observeN_large e h hh k]
    simp
  · rw [observeN_large e h hh k]
    exact dominantOf_replicate e e

/-- C6 (witness): from the empty (initial, reachable) history, nine
observations of happy leave eight entries with dominant happy. -/
theorem claim6_witness :
    (ReachableHistory ([] : List Emotion) ∧ 0 < 1) ∧
    ((pushHistory Emotion.happy []).length ≤ HISTORY_SIZE ∧
      (observeN Emotion.happy (HISTORY_SIZE + 1) []).length = HISTORY_SIZE ∧
      dominantOf Emotion.happy (observeN Emotion.happy (HISTORY_SIZE + 1) []) =
        Emotion.happy) :=
  ⟨⟨ReachableHistory.init, by decide⟩,
    claim6_theorem [] Emotion.happy 1 ReachableHistory.init (by decide)⟩
